import Mathlib

/-!
Verification of the limit order book matching engine (`order_book.py`).

The engine keeps, per symbol, two sequences of resting orders (bids sorted by
descending price, asks by ascending price, FIFO at equal prices) and matches
incoming orders against the opposite side, producing execution reports.

The shallow embedding below translates the Python code directly:
list mutation becomes explicit state passing, `while` loops become structural
recursion on the opposite-side list (each executed loop body either pops the
head of that list, or leaves a non-exhausted maker in place, in which case the
taker's remaining quantity is `0` and the Python loop guard fails, so the
translation returns there).  Prices and quantities are `Int`.
-/

namespace OrderBook

/-- The `Order` record (fields as read and written by `order_book.py`;
the class itself lives in the repository's `order` module). -/
structure Order where
  id : Nat
  symbol : String
  side : String
  type : String
  price : Int
  quantity : Int
deriving Repr, DecidableEq

/-- One execution report dict, as built by `_match_limit` / `_execute_market`
(the wall-clock `timestamp` field is omitted from the embedding). -/
structure Report where
  order_id : Nat
  symbol : String
  side : String
  filled_qty : Int
  price : Int
  status : String
deriving Repr, DecidableEq

/-- The book state: `symbol`, resting bids and asks (`LimitOrderBook.__init__`). -/
structure Book where
  symbol : String
  bids : List Order
  asks : List Order
deriving Repr, DecidableEq

/-- The status expression `"filled" if remaining == 0 else "partial_fill"`
that the source repeats for each report. -/
def fillStatus (remaining : Int) : String :=
  if remaining = 0 then "filled" else "partial_fill"

/-- The market taker's status expression (`order_book.py` line 120):
`"filled"` if the taker's remaining quantity is 0 **or** this fill exhausted
the maker while it was the last resting order, else `"partial_fill"`. -/
def marketTakerStatus (takerRemaining makerRemaining : Int) (wasLastMaker : Bool) : String :=
  if takerRemaining = 0 ∨ (makerRemaining = 0 ∧ wasLastMaker = true) then "filled"
  else "partial_fill"

/-- `LimitOrderBook._match_limit`: match an incoming limit (or stop-as-limit)
order against the opposite side while the head's price is compatible.
Returns (reports, mutated incoming order, mutated opposite side).

When a fill leaves the maker with nonzero remaining quantity, the fill was
`min` with the taker's side, so the taker's remaining quantity is `0` and the
Python `while` guard fails: the translation returns directly in that branch. -/
def matchLimit (order : Order) : List Order → List Report × Order × List Order
  | [] => ([], order, [])
  | best :: rest =>
    if 0 < order.quantity then
      -- buy order matches only if best ask <= order.price
      if order.side = "buy" ∧ order.price < best.price then
        ([], order, best :: rest)
      -- sell order matches only if best bid >= order.price
      else if order.side = "sell" ∧ best.price < order.price then
        ([], order, best :: rest)
      else
        let fill_qty := min order.quantity best.quantity
        let trade_price := best.price
        let r1 : Report :=
          { order_id := order.id, symbol := order.symbol, side := order.side,
            filled_qty := fill_qty, price := trade_price,
            status := fillStatus (order.quantity - fill_qty) }
        let r2 : Report :=
          { order_id := best.id, symbol := best.symbol, side := best.side,
            filled_qty := fill_qty, price := trade_price,
            status := fillStatus (best.quantity - fill_qty) }
        let order' : Order := { order with quantity := order.quantity - fill_qty }
        let best' : Order := { best with quantity := best.quantity - fill_qty }
        if best'.quantity = 0 then
          -- resting order fully filled: pop it and continue the loop
          let res := matchLimit order' rest
          (r1 :: r2 :: res.1, res.2)
        else
          -- maker not exhausted ⇒ taker exhausted ⇒ loop guard fails
          ([r1, r2], order', best' :: rest)
    else ([], order, best :: rest)

/-- `LimitOrderBook._execute_market`: fill a market order against the full
depth of the opposite side.  In the source the taker status checks
`len(opposite) == 1`; at that point the list still holds `best`, so it is
equivalent to `rest` being empty. -/
def executeMarket (order : Order) : List Order → List Report × Order × List Order
  | [] => ([], order, [])
  | best :: rest =>
    if 0 < order.quantity then
      let fill_qty := min order.quantity best.quantity
      let trade_price := best.price
      let order' : Order := { order with quantity := order.quantity - fill_qty }
      let best' : Order := { best with quantity := best.quantity - fill_qty }
      let r1 : Report :=
        { order_id := order.id, symbol := order.symbol, side := order.side,
          filled_qty := fill_qty, price := trade_price,
          status := marketTakerStatus order'.quantity best'.quantity rest.isEmpty }
      let r2 : Report :=
        { order_id := best.id, symbol := best.symbol, side := best.side,
          filled_qty := fill_qty, price := trade_price,
          status := fillStatus best'.quantity }
      if best'.quantity = 0 then
        let res := executeMarket order' rest
        (r1 :: r2 :: res.1, res.2)
      else
        ([r1, r2], order', best' :: rest)
    else ([], order, best :: rest)

/-- The inner `while` of `_insert_resting`: once a not-strictly-better price is
found, advance past the contiguous run of orders at exactly the incoming
order's price, then insert. -/
def insertAfterSamePrice (order : Order) : List Order → List Order
  | [] => [order]
  | b :: rest =>
    if b.price = order.price then b :: insertAfterSamePrice order rest
    else order :: b :: rest

/-- `LimitOrderBook._insert_resting`: advance past strictly better prices
(higher for bids, lower for asks), then past same-priced orders (FIFO), and
insert there. -/
def insertResting (order : Order) : List Order → List Order
  | [] => [order]
  | b :: rest =>
    if (if order.side = "buy" then order.price < b.price else b.price < order.price) then
      b :: insertResting order rest
    else
      insertAfterSamePrice order (b :: rest)

/-- The limit branch of `add_order`: match, then rest any positive remainder.
The source duplicates this code verbatim in the `else` (stop / unknown type)
branch of `add_order`. -/
def limitRoute (book : Book) (order : Order) : List Report × Book :=
  if order.side = "buy" then
    let res := matchLimit order book.asks
    let book1 : Book := { book with asks := res.2.2 }
    if 0 < res.2.1.quantity then
      (res.1, { book1 with bids := insertResting res.2.1 book1.bids })
    else (res.1, book1)
  else
    let res := matchLimit order book.bids
    let book1 : Book := { book with bids := res.2.2 }
    if 0 < res.2.1.quantity then
      (res.1, { book1 with asks := insertResting res.2.1 book1.asks })
    else (res.1, book1)

/-- `LimitOrderBook.add_order`: dispatch on the order type.  `market` goes to
`_execute_market`; `limit` matches then rests the remainder; every other type
(`stop` included) runs the same code as the limit branch. -/
def addOrder (book : Book) (order : Order) : List Report × Book :=
  if order.type = "market" then
    if order.side = "buy" then
      let res := executeMarket order book.asks
      (res.1, { book with asks := res.2.2 })
    else
      let res := executeMarket order book.bids
      (res.1, { book with bids := res.2.2 })
  else if order.type = "limit" then
    limitRoute book order
  else
    limitRoute book order

/-! ## Invariant predicates -/

/-- Bids are sorted by descending price. -/
def bidsSorted (l : List Order) : Prop := l.Pairwise fun a b => b.price ≤ a.price

/-- Asks are sorted by ascending price. -/
def asksSorted (l : List Order) : Prop := l.Pairwise fun a b => a.price ≤ b.price

/-- Every resting order has remaining quantity > 0. -/
def allPos (l : List Order) : Prop := ∀ o ∈ l, 0 < o.quantity

/-- If both sides are non-empty, the best bid is strictly below the best ask. -/
def headLt (bids asks : List Order) : Prop :=
  match bids, asks with
  | b :: _, a :: _ => b.price < a.price
  | _, _ => True

instance headLt.instDecidable : ∀ (bids asks : List Order), Decidable (headLt bids asks)
  | [], _ => isTrue trivial
  | _ :: _, [] => isTrue trivial
  | b :: _, a :: _ => inferInstanceAs (Decidable (b.price < a.price))

/-- The book invariants assumed by the no-cross claim. -/
def bookInv (book : Book) : Prop :=
  bidsSorted book.bids ∧ asksSorted book.asks ∧
  allPos book.bids ∧ allPos book.asks ∧ headLt book.bids book.asks

instance bidsSorted.instDecidable (l : List Order) : Decidable (bidsSorted l) := by
  unfold bidsSorted; infer_instance

instance asksSorted.instDecidable (l : List Order) : Decidable (asksSorted l) := by
  unfold asksSorted; infer_instance

instance allPos.instDecidable (l : List Order) : Decidable (allPos l) := by
  unfold allPos; infer_instance

instance bookInv.instDecidable (book : Book) : Decidable (bookInv book) := by
  unfold bookInv; infer_instance

/-! ## Helper lemmas: the matching loops -/

/-- `_match_limit` mutates only the incoming order's quantity. -/
lemma matchLimit_order' (order : Order) (opp : List Order) :
    ∃ q, (matchLimit order opp).2.1 = { order with quantity := q } := by
  induction opp generalizing order with
  | nil => exact ⟨order.quantity, rfl⟩
  | cons best rest ih =>
    simp only [matchLimit]
    split_ifs with h1 h2 h3 h4
    · exact ⟨order.quantity, rfl⟩
    · exact ⟨order.quantity, rfl⟩
    · obtain ⟨q, hq⟩ := ih { order with quantity := order.quantity - min order.quantity best.quantity }
      exact ⟨q, hq⟩
    · exact ⟨order.quantity - min order.quantity best.quantity, rfl⟩
    · exact ⟨order.quantity, rfl⟩

/-- `_execute_market` mutates only the incoming order's quantity. -/
lemma executeMarket_order' (order : Order) (opp : List Order) :
    ∃ q, (executeMarket order opp).2.1 = { order with quantity := q } := by
  induction opp generalizing order with
  | nil => exact ⟨order.quantity, rfl⟩
  | cons best rest ih =>
    simp only [executeMarket]
    split_ifs with h1 h2
    · obtain ⟨q, hq⟩ := ih { order with quantity := order.quantity - min order.quantity best.quantity }
      exact ⟨q, hq⟩
    · exact ⟨order.quantity - min order.quantity best.quantity, rfl⟩
    · exact ⟨order.quantity, rfl⟩

/-- Every order left on the opposite side by `_match_limit` is one of the
original resting orders, up to a decreased quantity (price and id survive). -/
lemma matchLimit_mem (order : Order) (opp : List Order) :
    ∀ x ∈ (matchLimit order opp).2.2, ∃ y ∈ opp, x.price = y.price ∧ x.id = y.id := by
  induction opp generalizing order with
  | nil => intro x hx; cases hx
  | cons best rest ih =>
    simp only [matchLimit]
    split_ifs with h1 h2 h3 h4
    · exact fun x hx => ⟨x, hx, rfl, rfl⟩
    · exact fun x hx => ⟨x, hx, rfl, rfl⟩
    · intro x hx
      obtain ⟨y, hy, hxy⟩ := ih _ x hx
      exact ⟨y, List.mem_cons_of_mem _ hy, hxy⟩
    · intro x hx
      rcases List.mem_cons.mp hx with h | h
      · exact ⟨best, List.mem_cons_self _ _, by rw [h], by rw [h]⟩
      · exact ⟨x, List.mem_cons_of_mem _ h, rfl, rfl⟩
    · exact fun x hx => ⟨x, hx, rfl, rfl⟩

/-- Same as `matchLimit_mem` for `_execute_market`. -/
lemma executeMarket_mem (order : Order) (opp : List Order) :
    ∀ x ∈ (executeMarket order opp).2.2, ∃ y ∈ opp, x.price = y.price ∧ x.id = y.id := by
  induction opp generalizing order with
  | nil => intro x hx; cases hx
  | cons best rest ih =>
    simp only [executeMarket]
    split_ifs with h1 h2
    · intro x hx
      obtain ⟨y, hy, hxy⟩ := ih _ x hx
      exact ⟨y, List.mem_cons_of_mem _ hy, hxy⟩
    · intro x hx
      rcases List.mem_cons.mp hx with h | h
      · exact ⟨best, List.mem_cons_self _ _, by rw [h], by rw [h]⟩
      · exact ⟨x, List.mem_cons_of_mem _ h, rfl, rfl⟩
    · exact fun x hx => ⟨x, hx, rfl, rfl⟩

/-- If `_match_limit` stops with positive taker quantity and a non-empty
opposite side, it stopped on the price check: the head of the remaining
opposite side is incompatible with the incoming order's limit price. -/
lemma matchLimit_break (order : Order) (opp : List Order) (b : Order) (t : List Order)
    (hq : 0 < (matchLimit order opp).2.1.quantity)
    (he : (matchLimit order opp).2.2 = b :: t) :
    (order.side = "buy" ∧ order.price < b.price) ∨
    (order.side = "sell" ∧ b.price < order.price) := by
  induction opp generalizing order with
  | nil => cases he
  | cons best rest ih =>
    simp only [matchLimit] at hq he
    split_ifs at hq he with h1 h2 h3 h4
    · injection he with hb ht
      exact Or.inl ⟨h2.1, hb ▸ h2.2⟩
    · injection he with hb ht
      exact Or.inr ⟨h3.1, hb ▸ h3.2⟩
    · exact ih { order with quantity := order.quantity - min order.quantity best.quantity } hq he
    · -- maker not exhausted ⇒ fill was the taker's full quantity ⇒ taker has 0 left
      exfalso
      rcases le_total order.quantity best.quantity with hle | hle
      · simp only [min_eq_left hle] at hq
        omega
      · exact h4 (by simp only [min_eq_right hle]; omega)
    · exact absurd hq h1

/-! ## Helper lemmas: no-cross -/

/-- Consuming the sorted ask side from the front can only raise the best ask,
so the best bid stays strictly below it. -/
lemma headLt_shrink_asks (bids asks asks' : List Order)
    (has : asksSorted asks) (hlt : headLt bids asks)
    (hmem : ∀ x ∈ asks', ∃ y ∈ asks, x.price = y.price ∧ x.id = y.id) :
    headLt bids asks' := by
  cases bids with
  | nil => cases asks' <;> trivial
  | cons b bs =>
    cases asks' with
    | nil => trivial
    | cons a' t' =>
      obtain ⟨y, hy, hpy, -⟩ := hmem a' (List.mem_cons_self _ _)
      cases asks with
      | nil => cases hy
      | cons a t =>
        simp only [asksSorted, List.pairwise_cons] at has
        have hay : a.price ≤ y.price := by
          rcases List.mem_cons.mp hy with h | h
          · rw [h]
          · exact has.1 y h
        have hba : b.price < a.price := hlt
        show b.price < a'.price
        omega

/-- Consuming the sorted bid side from the front can only lower the best bid,
so it stays strictly below the best ask. -/
lemma headLt_shrink_bids (bids bids' asks : List Order)
    (hbs : bidsSorted bids) (hlt : headLt bids asks)
    (hmem : ∀ x ∈ bids', ∃ y ∈ bids, x.price = y.price ∧ x.id = y.id) :
    headLt bids' asks := by
  cases asks with
  | nil => cases bids' <;> trivial
  | cons a as =>
    cases bids' with
    | nil => trivial
    | cons b' t' =>
      obtain ⟨y, hy, hpy, -⟩ := hmem b' (List.mem_cons_self _ _)
      cases bids with
      | nil => cases hy
      | cons b t =>
        simp only [bidsSorted, List.pairwise_cons] at hbs
        have hby : y.price ≤ b.price := by
          rcases List.mem_cons.mp hy with h | h
          · rw [h]
          · exact hbs.1 y h
        have hba : b.price < a.price := hlt
        show b'.price < a.price
        omega

/-- `_insert_resting` into a non-empty side: the new head is the old head or
the inserted order. -/
lemma insertResting_cons (o b : Order) (rest : List Order) :
    ∃ h t, insertResting o (b :: rest) = h :: t ∧ (h = o ∨ h = b) := by
  simp only [insertResting]
  by_cases hc : if o.side = "buy" then o.price < b.price else b.price < o.price
  · rw [if_pos hc]
    exact ⟨b, _, rfl, Or.inr rfl⟩
  · rw [if_neg hc]
    simp only [insertAfterSamePrice]
    by_cases h2 : b.price = o.price
    · rw [if_pos h2]
      exact ⟨b, _, rfl, Or.inr rfl⟩
    · rw [if_neg h2]
      exact ⟨o, _, rfl, Or.inl rfl⟩

/-- `limitRoute` (the limit/stop path of `add_order`) leaves an uncrossed
book uncrossed. -/
lemma limitRoute_no_cross (book : Book) (order : Order)
    (hbs : bidsSorted book.bids) (has : asksSorted book.asks)
    (hlt : headLt book.bids book.asks) :
    headLt (limitRoute book order).2.bids (limitRoute book order).2.asks := by
  simp only [limitRoute]
  split_ifs with hbuy hremb hrems
  · -- buy with positive remainder: match against asks, rest into bids
    obtain ⟨q', ho'⟩ := matchLimit_order' order book.asks
    set res := matchLimit order book.asks with hres
    show headLt (insertResting res.2.1 book.bids) res.2.2
    cases hasks' : res.2.2 with
    | nil => cases insertResting res.2.1 book.bids <;> trivial
    | cons a' t' =>
      have hbreak := matchLimit_break order book.asks a' t' hremb hasks'
      have hpa' : order.price < a'.price := by
        rcases hbreak with ⟨-, h⟩ | ⟨hside, -⟩
        · exact h
        · simp [hbuy] at hside
      have hshr : headLt book.bids (a' :: t') :=
        hasks' ▸ headLt_shrink_asks book.bids book.asks res.2.2 has hlt
          (matchLimit_mem order book.asks)
      cases hbids : book.bids with
      | nil =>
        rw [ho']
        show headLt (insertResting _ []) (a' :: t')
        simp only [insertResting]
        exact hpa'
      | cons b bs =>
        obtain ⟨h, t, hins, hh⟩ := insertResting_cons res.2.1 b bs
        rw [hins]
        show h.price < a'.price
        rcases hh with rfl | rfl
        · rw [ho']; exact hpa'
        · rw [hbids] at hshr; exact hshr
  · -- buy, no remainder: asks shrank, bids unchanged
    exact headLt_shrink_asks book.bids book.asks _ has hlt (matchLimit_mem order book.asks)
  · -- sell (or unrecognized side) with positive remainder
    obtain ⟨q', ho'⟩ := matchLimit_order' order book.bids
    set res := matchLimit order book.bids with hres
    show headLt res.2.2 (insertResting res.2.1 book.asks)
    cases hbids' : res.2.2 with
    | nil => cases insertResting res.2.1 book.asks <;> trivial
    | cons b' t' =>
      have hbreak := matchLimit_break order book.bids b' t' hrems hbids'
      have hpb' : b'.price < order.price := by
        rcases hbreak with ⟨hside, -⟩ | ⟨-, h⟩
        · exact absurd hside hbuy
        · exact h
      have hshr : headLt (b' :: t') book.asks :=
        hbids' ▸ headLt_shrink_bids book.bids res.2.2 book.asks hbs hlt
          (matchLimit_mem order book.bids)
      cases hasks : book.asks with
      | nil =>
        rw [ho']
        show headLt (b' :: t') (insertResting _ [])
        simp only [insertResting]
        exact hpb'
      | cons a as =>
        obtain ⟨h, t, hins, hh⟩ := insertResting_cons res.2.1 a as
        rw [hins]
        show b'.price < h.price
        rcases hh with rfl | rfl
        · rw [ho']; exact hpb'
        · rw [hasks] at hshr; exact hshr
  · -- sell (or unrecognized side), no remainder: bids shrank, asks unchanged
    exact headLt_shrink_bids book.bids _ book.asks hbs hlt (matchLimit_mem order book.bids)

/-! ## Claim C1: no-cross postcondition of `add_order` -/

/-- **C1.** For every order book satisfying the book invariants (sorted sides,
positive resting quantities, best bid strictly below best ask) and every
incoming order with quantity > 0, after `add_order` returns, if both sides are
non-empty then the price of the first bid is strictly less than the price of
the first ask. -/
theorem addOrder_no_cross (book : Book) (order : Order)
    (hinv : bookInv book) (hq : 0 < order.quantity) :
    headLt (addOrder book order).2.bids (addOrder book order).2.asks := by
  obtain ⟨hbs, has, hbp, hap, hlt⟩ := hinv
  simp only [addOrder]
  split_ifs with hmkt hbuy hlim
  · show headLt book.bids (executeMarket order book.asks).2.2
    exact headLt_shrink_asks _ _ _ has hlt (executeMarket_mem order book.asks)
  · show headLt (executeMarket order book.bids).2.2 book.asks
    exact headLt_shrink_bids _ _ _ hbs hlt (executeMarket_mem order book.bids)
  · exact limitRoute_no_cross book order hbs has hlt
  · exact limitRoute_no_cross book order hbs has hlt

/-- Sample resting bid used by the concrete witnesses. -/
def sampleBid : Order :=
  { id := 1, symbol := "X", side := "buy", type := "limit", price := 5, quantity := 3 }

/-- Sample resting ask used by the concrete witnesses. -/
def sampleAsk : Order :=
  { id := 2, symbol := "X", side := "sell", type := "limit", price := 10, quantity := 4 }

/-- Sample book (one bid at 5, one ask at 10) used by the concrete witnesses. -/
def sampleBook : Book := { symbol := "X", bids := [sampleBid], asks := [sampleAsk] }

/-- Sample incoming buy limit order (price 7, quantity 2): it cannot match the
ask at 10, so it rests at the front of the bid side. -/
def sampleBuy : Order :=
  { id := 3, symbol := "X", side := "buy", type := "limit", price := 7, quantity := 2 }

/-- Witness for C1 at a concrete input: the invariants hold for `sampleBook`,
and after adding `sampleBuy` the book is still uncrossed. -/
theorem addOrder_no_cross_witness :
    bookInv sampleBook ∧ 0 < sampleBuy.quantity ∧
    headLt (addOrder sampleBook sampleBuy).2.bids (addOrder sampleBook sampleBuy).2.asks :=
  ⟨by decide, by decide, addOrder_no_cross sampleBook sampleBuy (by decide) (by decide)⟩

/-! ## Helper lemmas: resting insertion -/

/-- The ordering a side must satisfy, as `_insert_resting` sees it: the `buy`
side descending by price, any other side ascending by price. -/
def sideLe (side : String) (a b : Order) : Prop :=
  if side = "buy" then b.price ≤ a.price else a.price ≤ b.price

/-- `p` is a strictly better price than `q` on the given side: strictly higher
for the `buy` side, strictly lower otherwise. -/
def betterPrice (side : String) (p q : Int) : Prop :=
  if side = "buy" then q < p else p < q

instance sideLe.instDecidable (side : String) (a b : Order) :
    Decidable (sideLe side a b) := by
  unfold sideLe; infer_instance

instance betterPrice.instDecidable (side : String) (p q : Int) :
    Decidable (betterPrice side p q) := by
  unfold betterPrice; infer_instance

/-- Decomposition of the inner same-price scan: the input splits as a run of
orders priced exactly at the incoming price followed by the remainder, and the
order is inserted between them. -/
lemma insertAfterSamePrice_split (o : Order) (l : List Order) :
    ∃ l₁ l₂, l = l₁ ++ l₂ ∧ insertAfterSamePrice o l = l₁ ++ o :: l₂ ∧
      (∀ x ∈ l₁, x.price = o.price) ∧
      ∀ b t, l₂ = b :: t → b.price ≠ o.price := by
  induction l with
  | nil =>
    refine ⟨[], [], rfl, rfl, ?_, ?_⟩
    · intro x hx; cases hx
    · intro b t h; cases h
  | cons c rest ih =>
    by_cases h : c.price = o.price
    · obtain ⟨l₁, l₂, he, hi, hall, hhd⟩ := ih
      refine ⟨c :: l₁, l₂, ?_, ?_, ?_, hhd⟩
      · rw [List.cons_append, ← he]
      · simp only [insertAfterSamePrice, if_pos h, hi, List.cons_append]
      · intro x hx
        rcases List.mem_cons.mp hx with rfl | hx
        · exact h
        · exact hall x hx
    · refine ⟨[], c :: rest, rfl, ?_, ?_, ?_⟩
      · simp only [insertAfterSamePrice, if_neg h, List.nil_append]
      · intro x hx; cases hx
      · intro b t hbt
        injection hbt with h1 _
        exact h1 ▸ h

/-- Decomposition of `_insert_resting`: the side splits as a strictly-better
prefix, then a run at exactly the incoming price, then the remainder; the
order is inserted after the same-price run.  When the same-price run is empty,
the scan stopped on the price test, so the remainder's head is not strictly
better either. -/
lemma insertResting_split (o : Order) (l : List Order) :
    ∃ la lb l₂, l = la ++ (lb ++ l₂) ∧ insertResting o l = la ++ (lb ++ o :: l₂) ∧
      (∀ x ∈ la, betterPrice o.side x.price o.price) ∧
      (∀ x ∈ lb, x.price = o.price) ∧
      (∀ b t, l₂ = b :: t → b.price ≠ o.price) ∧
      (lb = [] → ∀ b t, l₂ = b :: t → ¬ betterPrice o.side b.price o.price) := by
  induction l with
  | nil =>
    refine ⟨[], [], [], rfl, rfl, ?_, ?_, ?_, ?_⟩
    · intro x hx; cases hx
    · intro x hx; cases hx
    · intro b t h; cases h
    · intro _ b t h; cases h
  | cons c rest ih =>
    by_cases hskip : if o.side = "buy" then o.price < c.price else c.price < o.price
    · obtain ⟨la, lb, l₂, he, hi, hla, hlb, hhd, hnb⟩ := ih
      refine ⟨c :: la, lb, l₂, ?_, ?_, ?_, hlb, hhd, hnb⟩
      · rw [List.cons_append, ← he]
      · simp only [insertResting, if_pos hskip, hi, List.cons_append]
      · intro x hx
        rcases List.mem_cons.mp hx with rfl | hx
        · exact hskip
        · exact hla x hx
    · obtain ⟨l₁, l₂, he, hi, hall, hhd⟩ := insertAfterSamePrice_split o (c :: rest)
      refine ⟨[], l₁, l₂, by simpa using he, ?_, ?_, hall, hhd, ?_⟩
      · simp only [insertResting, if_neg hskip, List.nil_append]
        exact hi
      · intro x hx; cases hx
      · intro hlb1 b t hbt
        rw [hlb1, List.nil_append] at he
        rw [← he] at hbt
        injection hbt with h1 _
        exact h1 ▸ hskip

lemma sideLe_of_eq (side : String) {a b : Order} (h : a.price = b.price) :
    sideLe side a b := by
  unfold sideLe; split_ifs <;> omega

lemma sideLe_of_better (side : String) {a b : Order}
    (h : betterPrice side a.price b.price) : sideLe side a b := by
  unfold betterPrice at h; unfold sideLe
  split_ifs at h ⊢ <;> omega

lemma better_of_not_better_ne (side : String) {p q : Int}
    (h1 : ¬ betterPrice side p q) (h2 : p ≠ q) : betterPrice side q p := by
  unfold betterPrice at h1 ⊢
  split_ifs at h1 ⊢ <;> omega

lemma better_of_le_ne (side : String) {d c : Order} {p : Int}
    (hdc : sideLe side d c) (hd : d.price = p) (hc : c.price ≠ p) :
    betterPrice side p c.price := by
  unfold sideLe at hdc; unfold betterPrice
  split_ifs at hdc ⊢ <;> omega

lemma better_of_le_better (side : String) {c x : Order} {p : Int}
    (hcx : sideLe side c x) (hc : betterPrice side p c.price) :
    betterPrice side p x.price := by
  unfold sideLe at hcx; unfold betterPrice at hc ⊢
  split_ifs at hcx hc ⊢ <;> omega

/-! ## Claim C3: price-time priority of resting insertion -/

/-- **C3.** Inserting into a sorted side (descending for bids, ascending for
asks), `_insert_resting` places the order after every strictly-better-priced
order and after every order at exactly its price: the side splits as
`l₁ ++ l₂` with the new order between the parts, everything in `l₁` strictly
better or equal-priced, everything in `l₂` strictly worse, and the side stays
sorted — so earlier-arrived equal-priced orders stay ahead of the new one. -/
theorem insertResting_priority (o : Order) (l : List Order)
    (hs : l.Pairwise (sideLe o.side)) :
    ∃ l₁ l₂, l = l₁ ++ l₂ ∧ insertResting o l = l₁ ++ o :: l₂ ∧
      (∀ x ∈ l₁, betterPrice o.side x.price o.price ∨ x.price = o.price) ∧
      (∀ x ∈ l₂, betterPrice o.side o.price x.price) ∧
      (insertResting o l).Pairwise (sideLe o.side) := by
  obtain ⟨la, lb, l₂, he, hi, hla, hlb, hhd, hnb⟩ := insertResting_split o l
  have hs' := he ▸ hs
  rw [List.pairwise_append] at hs'
  obtain ⟨hpa, hptail, hcross⟩ := hs'
  rw [List.pairwise_append] at hptail
  obtain ⟨hpb, hp2, hcross2⟩ := hptail
  -- everything in the remainder is strictly worse than the incoming price
  have hworse : ∀ x ∈ l₂, betterPrice o.side o.price x.price := by
    cases hl2 : l₂ with
    | nil => intro x hx; exact absurd hx (List.not_mem_nil x)
    | cons c t =>
      have hcne : c.price ≠ o.price := hhd c t hl2
      have hcworse : betterPrice o.side o.price c.price := by
        cases hlb2 : lb with
        | nil =>
          exact better_of_not_better_ne o.side (hnb hlb2 c t hl2) hcne
        | cons d lt =>
          have hd : d.price = o.price := hlb d (hlb2 ▸ List.mem_cons_self _ _)
          have hdc : sideLe o.side d c :=
            hcross2 d (hlb2 ▸ List.mem_cons_self _ _) c (hl2 ▸ List.mem_cons_self _ _)
          exact better_of_le_ne o.side hdc hd hcne
      intro x hx
      rw [hl2] at hp2
      rcases List.mem_cons.mp hx with rfl | hx
      · exact hcworse
      · rw [List.pairwise_cons] at hp2
        exact better_of_le_better o.side (hp2.1 x hx) hcworse
  refine ⟨la ++ lb, l₂, by rw [he, List.append_assoc], by rw [hi, List.append_assoc], ?_, hworse, ?_⟩
  · intro x hx
    rcases List.mem_append.mp hx with hx | hx
    · exact Or.inl (hla x hx)
    · exact Or.inr (hlb x hx)
  · -- the updated side is still sorted
    rw [hi, List.pairwise_append]
    refine ⟨hpa, ?_, ?_⟩
    · rw [List.pairwise_append]
      refine ⟨hpb, ?_, ?_⟩
      · rw [List.pairwise_cons]
        exact ⟨fun x hx => sideLe_of_better o.side (hworse x hx), hp2⟩
      · intro a ha b hb
        rcases List.mem_cons.mp hb with hbo | hb
        · rw [hbo]; exact sideLe_of_eq o.side (hlb a ha)
        · exact hcross2 a ha b hb
    · intro a ha b hb
      rcases List.mem_append.mp hb with hb | hb
      · exact hcross a ha b (List.mem_append_left _ hb)
      · rcases List.mem_cons.mp hb with hbo | hb
        · rw [hbo]; exact sideLe_of_better o.side (hla a ha)
        · exact hcross a ha b (List.mem_append_right _ hb)

/-- Sample bid at price 8 for the insertion witness. -/
def sampleBid8 : Order :=
  { id := 4, symbol := "X", side := "buy", type := "limit", price := 8, quantity := 6 }

/-- Sample bid at price 3 for the insertion witness. -/
def sampleBid3 : Order :=
  { id := 5, symbol := "X", side := "buy", type := "limit", price := 3, quantity := 1 }

/-- Sample sorted bid side (prices 8, 5, 3) for the insertion witness. -/
def sampleBidSide : List Order := [sampleBid8, sampleBid, sampleBid3]

/-- Witness for C3 at a concrete input: inserting the buy order at price 7
into the sorted bid side [8, 5, 3]. -/
theorem insertResting_priority_witness :
    sampleBidSide.Pairwise (sideLe sampleBuy.side) ∧
    ∃ l₁ l₂, sampleBidSide = l₁ ++ l₂ ∧
      insertResting sampleBuy sampleBidSide = l₁ ++ sampleBuy :: l₂ ∧
      (∀ x ∈ l₁, betterPrice sampleBuy.side x.price sampleBuy.price ∨
        x.price = sampleBuy.price) ∧
      (∀ x ∈ l₂, betterPrice sampleBuy.side sampleBuy.price x.price) ∧
      (insertResting sampleBuy sampleBidSide).Pairwise (sideLe sampleBuy.side) :=
  ⟨by decide, insertResting_priority sampleBuy sampleBidSide (by decide)⟩

/-! ## Helper lemmas: quantities and termination -/

/-- The taker's remaining quantity never becomes negative in `_match_limit`. -/
lemma matchLimit_qty_nonneg (order : Order) (opp : List Order)
    (h : 0 ≤ order.quantity) : 0 ≤ (matchLimit order opp).2.1.quantity := by
  induction opp generalizing order with
  | nil => exact h
  | cons best rest ih =>
    simp only [matchLimit]
    split_ifs with h1 h2 h3 h4
    · exact h
    · exact h
    · refine ih _ ?_
      show 0 ≤ order.quantity - min order.quantity best.quantity
      have := min_le_left order.quantity best.quantity
      omega
    · show 0 ≤ order.quantity - min order.quantity best.quantity
      have := min_le_left order.quantity best.quantity
      omega
    · exact h

/-- The taker's remaining quantity never becomes negative in `_execute_market`. -/
lemma executeMarket_qty_nonneg (order : Order) (opp : List Order)
    (h : 0 ≤ order.quantity) : 0 ≤ (executeMarket order opp).2.1.quantity := by
  induction opp generalizing order with
  | nil => exact h
  | cons best rest ih =>
    simp only [executeMarket]
    split_ifs with h1 h2
    · refine ih _ ?_
      show 0 ≤ order.quantity - min order.quantity best.quantity
      have := min_le_left order.quantity best.quantity
      omega
    · show 0 ≤ order.quantity - min order.quantity best.quantity
      have := min_le_left order.quantity best.quantity
      omega
    · exact h

/-- `_execute_market` stops only when the taker is exhausted or the opposite
side is empty. -/
lemma executeMarket_exit (order : Order) (opp : List Order)
    (h : 0 ≤ order.quantity) :
    (executeMarket order opp).2.1.quantity = 0 ∨ (executeMarket order opp).2.2 = [] := by
  induction opp generalizing order with
  | nil => exact Or.inr rfl
  | cons best rest ih =>
    simp only [executeMarket]
    split_ifs with h1 h2
    · refine ih _ ?_
      show 0 ≤ order.quantity - min order.quantity best.quantity
      have := min_le_left order.quantity best.quantity
      omega
    · left
      show order.quantity - min order.quantity best.quantity = 0
      rcases le_total order.quantity best.quantity with hle | hle
      · rw [min_eq_left hle]; omega
      · exfalso
        exact h2 (show best.quantity - min order.quantity best.quantity = 0 by
          rw [min_eq_right hle]; omega)
    · left
      show order.quantity = 0
      omega

/-- The opposite side only gets shorter in `_match_limit`. -/
lemma matchLimit_length (order : Order) (opp : List Order) :
    (matchLimit order opp).2.2.length ≤ opp.length := by
  induction opp generalizing order with
  | nil => exact le_refl _
  | cons best rest ih =>
    simp only [matchLimit]
    split_ifs with h1 h2 h3 h4
    · exact le_refl _
    · exact le_refl _
    · exact le_trans (ih _) (by simp)
    · exact le_refl _
    · exact le_refl _

/-- The opposite side only gets shorter in `_execute_market`. -/
lemma executeMarket_length (order : Order) (opp : List Order) :
    (executeMarket order opp).2.2.length ≤ opp.length := by
  induction opp generalizing order with
  | nil => exact le_refl _
  | cons best rest ih =>
    simp only [executeMarket]
    split_ifs with h1 h2
    · exact le_trans (ih _) (by simp)
    · exact le_refl _
    · exact le_refl _

/-! ## Claim C9: termination of the matching loops -/

/-- **C9.** Both matching loops terminate, and only in the stated ways: the
limit loop ends with the incoming quantity exhausted, the opposite side empty,
or a price-incompatible head; the market loop ends with the quantity exhausted
or the opposite side empty; and neither loop ever lengthens the opposite
side. -/
theorem matching_terminates (order : Order) (opp : List Order)
    (hq : 0 < order.quantity) (hpos : allPos opp) :
    ((matchLimit order opp).2.1.quantity = 0 ∨ (matchLimit order opp).2.2 = [] ∨
      ∃ b t, (matchLimit order opp).2.2 = b :: t ∧
        ((order.side = "buy" ∧ order.price < b.price) ∨
         (order.side = "sell" ∧ b.price < order.price))) ∧
    ((executeMarket order opp).2.1.quantity = 0 ∨ (executeMarket order opp).2.2 = []) ∧
    (matchLimit order opp).2.2.length ≤ opp.length ∧
    (executeMarket order opp).2.2.length ≤ opp.length := by
  refine ⟨?_, executeMarket_exit order opp (le_of_lt hq),
    matchLimit_length order opp, executeMarket_length order opp⟩
  by_cases hz : (matchLimit order opp).2.1.quantity = 0
  · exact Or.inl hz
  · have hn := matchLimit_qty_nonneg order opp (le_of_lt hq)
    cases he : (matchLimit order opp).2.2 with
    | nil => exact Or.inr (Or.inl rfl)
    | cons b t =>
      exact Or.inr (Or.inr ⟨b, t, rfl,
        matchLimit_break order opp b t (by omega) he⟩)

/-- Witness for C9 at a concrete input: the buy limit order at 7 against the
single resting ask at 10. -/
theorem matching_terminates_witness :
    0 < sampleBuy.quantity ∧ allPos [sampleAsk] ∧
    (((matchLimit sampleBuy [sampleAsk]).2.1.quantity = 0 ∨
      (matchLimit sampleBuy [sampleAsk]).2.2 = [] ∨
      ∃ b t, (matchLimit sampleBuy [sampleAsk]).2.2 = b :: t ∧
        ((sampleBuy.side = "buy" ∧ sampleBuy.price < b.price) ∨
         (sampleBuy.side = "sell" ∧ b.price < sampleBuy.price))) ∧
    ((executeMarket sampleBuy [sampleAsk]).2.1.quantity = 0 ∨
      (executeMarket sampleBuy [sampleAsk]).2.2 = []) ∧
    (matchLimit sampleBuy [sampleAsk]).2.2.length ≤ ([sampleAsk] : List Order).length ∧
    (executeMarket sampleBuy [sampleAsk]).2.2.length ≤ ([sampleAsk] : List Order).length) :=
  ⟨by decide, by decide, matching_terminates sampleBuy [sampleAsk] (by decide) (by decide)⟩

/-! ## Helper lemmas: positivity of resting quantities -/

/-- `_match_limit` keeps every remaining opposite-side quantity positive. -/
lemma matchLimit_allPos (order : Order) (opp : List Order) (hp : allPos opp) :
    allPos (matchLimit order opp).2.2 := by
  induction opp generalizing order with
  | nil => intro x hx; cases hx
  | cons best rest ih =>
    simp only [matchLimit]
    split_ifs with h1 h2 h3 h4
    · exact hp
    · exact hp
    · exact ih _ fun x hx => hp x (List.mem_cons_of_mem _ hx)
    · intro x hx
      rcases List.mem_cons.mp hx with hxb | hx
      · rw [hxb]
        show 0 < best.quantity - min order.quantity best.quantity
        have h4' : ¬ best.quantity - min order.quantity best.quantity = 0 := h4
        have := min_le_right order.quantity best.quantity
        omega
      · exact hp x (List.mem_cons_of_mem _ hx)
    · exact hp

/-- `_execute_market` keeps every remaining opposite-side quantity positive. -/
lemma executeMarket_allPos (order : Order) (opp : List Order) (hp : allPos opp) :
    allPos (executeMarket order opp).2.2 := by
  induction opp generalizing order with
  | nil => intro x hx; cases hx
  | cons best rest ih =>
    simp only [executeMarket]
    split_ifs with h1 h2
    · exact ih _ fun x hx => hp x (List.mem_cons_of_mem _ hx)
    · intro x hx
      rcases List.mem_cons.mp hx with hxb | hx
      · rw [hxb]
        show 0 < best.quantity - min order.quantity best.quantity
        have h2' : ¬ best.quantity - min order.quantity best.quantity = 0 := h2
        have := min_le_right order.quantity best.quantity
        omega
      · exact hp x (List.mem_cons_of_mem _ hx)
    · exact hp

lemma insertAfterSamePrice_allPos (o : Order) (l : List Order)
    (ho : 0 < o.quantity) (hp : allPos l) : allPos (insertAfterSamePrice o l) := by
  induction l with
  | nil =>
    intro x hx
    rw [List.mem_singleton.mp hx]
    exact ho
  | cons b rest ih =>
    simp only [insertAfterSamePrice]
    split_ifs with h
    · intro x hx
      rcases List.mem_cons.mp hx with hxb | hx
      · exact hxb ▸ hp b (List.mem_cons_self _ _)
      · exact ih (fun y hy => hp y (List.mem_cons_of_mem _ hy)) x hx
    · intro x hx
      rcases List.mem_cons.mp hx with hxo | hx
      · exact hxo ▸ ho
      · exact hp x hx

lemma insertResting_allPos (o : Order) (l : List Order)
    (ho : 0 < o.quantity) (hp : allPos l) : allPos (insertResting o l) := by
  induction l with
  | nil =>
    intro x hx
    rw [List.mem_singleton.mp hx]
    exact ho
  | cons b rest ih =>
    simp only [insertResting]
    by_cases h : if o.side = "buy" then o.price < b.price else b.price < o.price
    · rw [if_pos h]
      intro x hx
      rcases List.mem_cons.mp hx with hxb | hx
      · exact hxb ▸ hp b (List.mem_cons_self _ _)
      · exact ih (fun y hy => hp y (List.mem_cons_of_mem _ hy)) x hx
    · rw [if_neg h]
      exact insertAfterSamePrice_allPos o (b :: rest) ho hp

/-- The limit/stop path of `add_order` keeps all resting quantities positive. -/
lemma limitRoute_allPos (book : Book) (order : Order)
    (hb : allPos book.bids) (ha : allPos book.asks) :
    allPos (limitRoute book order).2.bids ∧ allPos (limitRoute book order).2.asks := by
  simp only [limitRoute]
  split_ifs with hbuy hrem hrem2
  · exact ⟨insertResting_allPos _ _ hrem hb, matchLimit_allPos order book.asks ha⟩
  · exact ⟨hb, matchLimit_allPos order book.asks ha⟩
  · exact ⟨matchLimit_allPos order book.bids hb, insertResting_allPos _ _ hrem2 ha⟩
  · exact ⟨matchLimit_allPos order book.bids hb, ha⟩

/-! ## Claim C8: resting quantities stay positive -/

/-- **C8.** Starting from a book in which every resting order has remaining
quantity > 0, any `add_order` call (with incoming quantity > 0) preserves
that: every resting order after the call still has remaining quantity > 0
(an exhausted maker is popped in the same step that exhausted it). -/
theorem addOrder_preserves_pos (book : Book) (order : Order)
    (hq : 0 < order.quantity) (hb : allPos book.bids) (ha : allPos book.asks) :
    allPos (addOrder book order).2.bids ∧ allPos (addOrder book order).2.asks := by
  simp only [addOrder]
  split_ifs with hmkt hbuy hlim
  · exact ⟨hb, executeMarket_allPos order book.asks ha⟩
  · exact ⟨executeMarket_allPos order book.bids hb, ha⟩
  · exact limitRoute_allPos book order hb ha
  · exact limitRoute_allPos book order hb ha

/-- Witness for C8 at a concrete input. -/
theorem addOrder_preserves_pos_witness :
    0 < sampleBuy.quantity ∧ allPos sampleBook.bids ∧ allPos sampleBook.asks ∧
    (allPos (addOrder sampleBook sampleBuy).2.bids ∧
     allPos (addOrder sampleBook sampleBuy).2.asks) :=
  ⟨by decide, by decide, by decide,
    addOrder_preserves_pos sampleBook sampleBuy (by decide) (by decide) (by decide)⟩

/-! ## Claim C7: market orders never rest -/

/-- **C7.** A market order never rests: if the order's id is not already in
the book, it is in neither sequence after `add_order`, and the same side of
the book is left completely untouched (the unfilled remainder is discarded). -/
theorem market_never_rests (book : Book) (order : Order)
    (hmkt : order.type = "market")
    (hb : ∀ x ∈ book.bids, x.id ≠ order.id) (ha : ∀ x ∈ book.asks, x.id ≠ order.id) :
    (∀ x ∈ (addOrder book order).2.bids, x.id ≠ order.id) ∧
    (∀ x ∈ (addOrder book order).2.asks, x.id ≠ order.id) ∧
    (order.side = "buy" → (addOrder book order).2.bids = book.bids) ∧
    (order.side ≠ "buy" → (addOrder book order).2.asks = book.asks) := by
  simp only [addOrder, if_pos hmkt]
  split_ifs with hbuy
  · refine ⟨hb, ?_, fun _ => rfl, fun hn => absurd hbuy hn⟩
    intro x hx
    obtain ⟨y, hy, -, hid⟩ := executeMarket_mem order book.asks x hx
    exact hid ▸ ha y hy
  · refine ⟨?_, ha, fun hy => absurd hy hbuy, fun _ => rfl⟩
    intro x hx
    obtain ⟨y, hy, -, hid⟩ := executeMarket_mem order book.bids x hx
    exact hid ▸ hb y hy

/-- Sample market buy order (quantity 10 exceeds the book's depth). -/
def sampleMarket : Order :=
  { id := 9, symbol := "X", side := "buy", type := "market", price := 0, quantity := 10 }

/-- Witness for C7 at a concrete input: the market buy for 10 against the
book with one ask of quantity 4 — 6 units are silently discarded. -/
theorem market_never_rests_witness :
    sampleMarket.type = "market" ∧
    ((∀ x ∈ (addOrder sampleBook sampleMarket).2.bids, x.id ≠ sampleMarket.id) ∧
     (∀ x ∈ (addOrder sampleBook sampleMarket).2.asks, x.id ≠ sampleMarket.id) ∧
     (sampleMarket.side = "buy" → (addOrder sampleBook sampleMarket).2.bids = sampleBook.bids) ∧
     (sampleMarket.side ≠ "buy" → (addOrder sampleBook sampleMarket).2.asks = sampleBook.asks)) :=
  ⟨by decide,
    market_never_rests sampleBook sampleMarket (by decide) (by decide) (by decide)⟩

/-! ## Claim C10: non-positive-quantity limit/stop orders are dropped -/

/-- With a non-positive incoming quantity the match loop's guard fails at once. -/
lemma matchLimit_nonpos (order : Order) (opp : List Order)
    (h : order.quantity ≤ 0) : matchLimit order opp = ([], order, opp) := by
  cases opp with
  | nil => rfl
  | cons best rest =>
    simp only [matchLimit, if_neg (show ¬ 0 < order.quantity by omega)]

/-- Any non-market order type takes the limit path of `add_order`. -/
lemma addOrder_nonmarket (book : Book) (order : Order) (h : order.type ≠ "market") :
    addOrder book order = limitRoute book order := by
  simp only [addOrder, if_neg h]
  split_ifs <;> rfl

/-- **C10.** A limit/stop (or unknown-type) order submitted with remaining
quantity ≤ 0 produces no reports and leaves the book exactly unchanged: the
match loop's guard fails immediately and the resting-insertion branch is
skipped. -/
theorem addOrder_nonpos_noop (book : Book) (order : Order)
    (hmkt : order.type ≠ "market") (hq : order.quantity ≤ 0) :
    addOrder book order = ([], book) := by
  rw [addOrder_nonmarket book order hmkt]
  simp only [limitRoute]
  split_ifs with hbuy hrem hrem2
  · exfalso
    rw [matchLimit_nonpos order book.asks hq] at hrem
    have h' : 0 < order.quantity := hrem
    omega
  · rw [matchLimit_nonpos order book.asks hq]
  · exfalso
    rw [matchLimit_nonpos order book.bids hq] at hrem2
    have h' : 0 < order.quantity := hrem2
    omega
  · rw [matchLimit_nonpos order book.bids hq]

/-- Sample sell limit order with quantity 0 (violating the precondition). -/
def sampleZeroSell : Order :=
  { id := 11, symbol := "X", side := "sell", type := "limit", price := 6, quantity := 0 }

/-- Witness for C10 at a concrete input. -/
theorem addOrder_nonpos_noop_witness :
    sampleZeroSell.type ≠ "market" ∧ sampleZeroSell.quantity ≤ 0 ∧
    addOrder sampleBook sampleZeroSell = ([], sampleBook) :=
  ⟨by decide, by decide,
    addOrder_nonpos_noop sampleBook sampleZeroSell (by decide) (by decide)⟩

/-! ## Per-fill specification predicates

Each predicate walks the report list in taker/maker pairs while threading the
taker's pre-fill remaining quantity and the not-yet-consumed opposite side,
exactly mirroring the spec's per-fill-event language.  `q` is the taker's
remaining quantity just before the fill described by the pair `r1, r2`;
`m` is the maker it matched.  A pair with an exhausted maker continues the
walk; a pair with a surviving maker must be the last. -/

/-- Quantity conservation and maker pricing, per fill event (spec §8 / §4.2):
`filled_qty = min(pre-fill taker remaining, pre-fill maker remaining)` in both
reports of the pair, both priced at the maker's price, and both remaining
quantities reduced by exactly the fill (encoded by the threading). -/
def conserved : Int → List Order → List Report → Prop
  | _, _, [] => True
  | _, [], _ :: _ => False
  | _, _ :: _, [_] => False
  | q, m :: ms, r1 :: r2 :: rest =>
      r1.filled_qty = min q m.quantity ∧ r2.filled_qty = min q m.quantity ∧
      r1.price = m.price ∧ r2.price = m.price ∧
      (if m.quantity - min q m.quantity = 0 then conserved (q - min q m.quantity) ms rest
       else rest = [])

/-- Sum of the taker-side `filled_qty` entries of a paired report list. -/
def takerFillSum : List Report → Int
  | r1 :: _ :: rest => r1.filled_qty + takerFillSum rest
  | _ => 0

/-- Status rule of the limit-matching path (spec §4.3): the taker's report is
`filled` iff its remaining quantity is 0 after the fill; the maker's report is
`filled` iff its own remaining quantity is 0 after the fill. -/
def limitStatusOk : Int → List Order → List Report → Prop
  | _, _, [] => True
  | _, [], _ :: _ => False
  | _, _ :: _, [_] => False
  | q, m :: ms, r1 :: r2 :: rest =>
      (r1.status = if q - min q m.quantity = 0 then "filled" else "partial_fill") ∧
      (r2.status = if m.quantity - min q m.quantity = 0 then "filled" else "partial_fill") ∧
      (if m.quantity - min q m.quantity = 0 then limitStatusOk (q - min q m.quantity) ms rest
       else rest = [])

/-- Status rule of the market-execution path (spec §4.2): the taker's report
is `filled` iff its remaining quantity is 0 after the fill **or** the fill
exhausted the maker while the opposite side held exactly that one order; the
maker's report is `filled` iff its own remaining quantity is 0 after the
fill. -/
def marketStatusOk : Int → List Order → List Report → Prop
  | _, _, [] => True
  | _, [], _ :: _ => False
  | _, _ :: _, [_] => False
  | q, m :: ms, r1 :: r2 :: rest =>
      (r1.status = if q - min q m.quantity = 0 ∨ (m.quantity - min q m.quantity = 0 ∧ ms = [])
        then "filled" else "partial_fill") ∧
      (r2.status = if m.quantity - min q m.quantity = 0 then "filled" else "partial_fill") ∧
      (if m.quantity - min q m.quantity = 0 then marketStatusOk (q - min q m.quantity) ms rest
       else rest = [])

/-- The maker half of the status rule alone (used to state C5's market-path
part): the maker's report is `filled` iff its own remaining quantity is 0
after the fill. -/
def makerStatusOk : Int → List Order → List Report → Prop
  | _, _, [] => True
  | _, [], _ :: _ => False
  | _, _ :: _, [_] => False
  | q, m :: ms, _ :: r2 :: rest =>
      (r2.status = if m.quantity - min q m.quantity = 0 then "filled" else "partial_fill") ∧
      (if m.quantity - min q m.quantity = 0 then makerStatusOk (q - min q m.quantity) ms rest
       else rest = [])

/-- The source's market taker status, written against the pre-pop list length:
`len(opposite) == 1` at that point means the tail is empty. -/
lemma marketTakerStatus_eq (qr mr : Int) (l : List Order) :
    marketTakerStatus qr mr l.isEmpty =
      if qr = 0 ∨ (mr = 0 ∧ l = []) then "filled" else "partial_fill" := by
  cases l with
  | nil => simp [marketTakerStatus]
  | cons c cs => simp [marketTakerStatus]

/-- `_match_limit`'s reports satisfy the per-fill conservation predicate. -/
lemma matchLimit_conserved (order : Order) (opp : List Order) :
    conserved order.quantity opp (matchLimit order opp).1 := by
  induction opp generalizing order with
  | nil => exact trivial
  | cons best rest ih =>
    simp only [matchLimit]
    split_ifs with h1 h2 h3 h4
    · exact trivial
    · exact trivial
    · have h4' : best.quantity - min order.quantity best.quantity = 0 := h4
      exact ⟨rfl, rfl, rfl, rfl, by
        rw [if_pos h4']
        exact ih { order with quantity := order.quantity - min order.quantity best.quantity }⟩
    · have h4' : ¬ best.quantity - min order.quantity best.quantity = 0 := h4
      exact ⟨rfl, rfl, rfl, rfl, by rw [if_neg h4']⟩
    · exact trivial

/-- `_execute_market`'s reports satisfy the per-fill conservation predicate. -/
lemma executeMarket_conserved (order : Order) (opp : List Order) :
    conserved order.quantity opp (executeMarket order opp).1 := by
  induction opp generalizing order with
  | nil => exact trivial
  | cons best rest ih =>
    simp only [executeMarket]
    split_ifs with h1 h2
    · have h2' : best.quantity - min order.quantity best.quantity = 0 := h2
      exact ⟨rfl, rfl, rfl, rfl, by
        rw [if_pos h2']
        exact ih { order with quantity := order.quantity - min order.quantity best.quantity }⟩
    · have h2' : ¬ best.quantity - min order.quantity best.quantity = 0 := h2
      exact ⟨rfl, rfl, rfl, rfl, by rw [if_neg h2']⟩
    · exact trivial

/-- The taker leaves `_match_limit` with its quantity reduced by exactly the
sum of its reported fills. -/
lemma matchLimit_fillSum (order : Order) (opp : List Order) :
    (matchLimit order opp).2.1.quantity =
      order.quantity - takerFillSum (matchLimit order opp).1 := by
  induction opp generalizing order with
  | nil =>
    show order.quantity = order.quantity - (0 : Int)
    omega
  | cons best rest ih =>
    simp only [matchLimit]
    split_ifs with h1 h2 h3 h4
    · show order.quantity = order.quantity - (0 : Int)
      omega
    · show order.quantity = order.quantity - (0 : Int)
      omega
    · have h5 : (matchLimit { order with quantity := order.quantity - min order.quantity best.quantity } rest).2.1.quantity
          = order.quantity - min order.quantity best.quantity -
            takerFillSum (matchLimit { order with quantity := order.quantity - min order.quantity best.quantity } rest).1 := ih _
      show (matchLimit { order with quantity := order.quantity - min order.quantity best.quantity } rest).2.1.quantity
          = order.quantity - (min order.quantity best.quantity +
            takerFillSum (matchLimit { order with quantity := order.quantity - min order.quantity best.quantity } rest).1)
      omega
    · show order.quantity - min order.quantity best.quantity
          = order.quantity - (min order.quantity best.quantity + (0 : Int))
      omega
    · show order.quantity = order.quantity - (0 : Int)
      omega

/-- The taker leaves `_execute_market` with its quantity reduced by exactly
the sum of its reported fills. -/
lemma executeMarket_fillSum (order : Order) (opp : List Order) :
    (executeMarket order opp).2.1.quantity =
      order.quantity - takerFillSum (executeMarket order opp).1 := by
  induction opp generalizing order with
  | nil =>
    show order.quantity = order.quantity - (0 : Int)
    omega
  | cons best rest ih =>
    simp only [executeMarket]
    split_ifs with h1 h2
    · have h5 : (executeMarket { order with quantity := order.quantity - min order.quantity best.quantity } rest).2.1.quantity
          = order.quantity - min order.quantity best.quantity -
            takerFillSum (executeMarket { order with quantity := order.quantity - min order.quantity best.quantity } rest).1 := ih _
      show (executeMarket { order with quantity := order.quantity - min order.quantity best.quantity } rest).2.1.quantity
          = order.quantity - (min order.quantity best.quantity +
            takerFillSum (executeMarket { order with quantity := order.quantity - min order.quantity best.quantity } rest).1)
      omega
    · show order.quantity - min order.quantity best.quantity
          = order.quantity - (min order.quantity best.quantity + (0 : Int))
      omega
    · show order.quantity = order.quantity - (0 : Int)
      omega

/-- The limit-path status rule holds for `_match_limit`'s reports. -/
lemma matchLimit_statusOk (order : Order) (opp : List Order) :
    limitStatusOk order.quantity opp (matchLimit order opp).1 := by
  induction opp generalizing order with
  | nil => exact trivial
  | cons best rest ih =>
    simp only [matchLimit]
    split_ifs with h1 h2 h3 h4
    · exact trivial
    · exact trivial
    · have h4' : best.quantity - min order.quantity best.quantity = 0 := h4
      exact ⟨rfl, rfl, by
        rw [if_pos h4']
        exact ih { order with quantity := order.quantity - min order.quantity best.quantity }⟩
    · have h4' : ¬ best.quantity - min order.quantity best.quantity = 0 := h4
      exact ⟨rfl, rfl, by rw [if_neg h4']⟩
    · exact trivial

/-- The market-path maker status rule holds for `_execute_market`'s reports. -/
lemma executeMarket_makerStatusOk (order : Order) (opp : List Order) :
    makerStatusOk order.quantity opp (executeMarket order opp).1 := by
  induction opp generalizing order with
  | nil => exact trivial
  | cons best rest ih =>
    simp only [executeMarket]
    split_ifs with h1 h2
    · have h2' : best.quantity - min order.quantity best.quantity = 0 := h2
      exact ⟨rfl, by
        rw [if_pos h2']
        exact ih { order with quantity := order.quantity - min order.quantity best.quantity }⟩
    · have h2' : ¬ best.quantity - min order.quantity best.quantity = 0 := h2
      exact ⟨rfl, by rw [if_neg h2']⟩
    · exact trivial

/-! ## Claim C2: the market taker status rule -/

/-- **C2.** For every fill event of a market order, the taker's status is
`filled` iff, after the fill, the taker's remaining quantity is 0 or the fill
exhausted the maker while the opposite side held exactly one order before the
removal; otherwise `partial_fill` (the predicate also pins the maker's
status). -/
theorem market_status_rule (order : Order) (opp : List Order) :
    marketStatusOk order.quantity opp (executeMarket order opp).1 := by
  induction opp generalizing order with
  | nil => exact trivial
  | cons best rest ih =>
    simp only [executeMarket]
    split_ifs with h1 h2
    · have h2' : best.quantity - min order.quantity best.quantity = 0 := h2
      exact ⟨marketTakerStatus_eq _ _ rest, rfl, by
        rw [if_pos h2']
        exact ih { order with quantity := order.quantity - min order.quantity best.quantity }⟩
    · have h2' : ¬ best.quantity - min order.quantity best.quantity = 0 := h2
      exact ⟨marketTakerStatus_eq _ _ rest, rfl, by rw [if_neg h2']⟩
    · exact trivial

/-! ## Claim C4: per-fill quantity conservation and maker pricing -/

/-- **C4.** In both matching loops, every fill's quantity is the minimum of
the pre-fill taker and maker remainders, both reports of the pair carry that
quantity and the maker's price, and the taker's total decrement equals the
sum of its reported fills. -/
theorem fill_conservation (order : Order) (opp : List Order) :
    conserved order.quantity opp (matchLimit order opp).1 ∧
    conserved order.quantity opp (executeMarket order opp).1 ∧
    (matchLimit order opp).2.1.quantity =
      order.quantity - takerFillSum (matchLimit order opp).1 ∧
    (executeMarket order opp).2.1.quantity =
      order.quantity - takerFillSum (executeMarket order opp).1 :=
  ⟨matchLimit_conserved order opp, executeMarket_conserved order opp,
   matchLimit_fillSum order opp, executeMarket_fillSum order opp⟩

/-! ## Claim C5: the limit status rule and the maker status rule -/

/-- **C5.** On the limit/stop matching path the taker's status is `filled`
iff its remaining quantity is 0 after the fill (no last-resting-order special
case), and on both paths the maker's status is `filled` iff its own remaining
quantity is 0 after the fill. -/
theorem limit_status_rule (order : Order) (opp : List Order) :
    limitStatusOk order.quantity opp (matchLimit order opp).1 ∧
    makerStatusOk order.quantity opp (executeMarket order opp).1 :=
  ⟨matchLimit_statusOk order opp, executeMarket_makerStatusOk order opp⟩

/-! ## Claim C6: non-market order types take the limit path -/

/-- Forget an order's type string (rewrite it to `"limit"`), for comparing
book states up to the stored type tag. -/
def retype (x : Order) : Order := { x with type := "limit" }

/-- The matching loop never reads the incoming order's type. -/
lemma matchLimit_type_irrel (i : Nat) (sym sd t1 t2 : String) (p : Int)
    (opp : List Order) :
    ∀ q : Int, matchLimit ⟨i, sym, sd, t2, p, q⟩ opp =
      ((matchLimit ⟨i, sym, sd, t1, p, q⟩ opp).1,
       { (matchLimit ⟨i, sym, sd, t1, p, q⟩ opp).2.1 with type := t2 },
       (matchLimit ⟨i, sym, sd, t1, p, q⟩ opp).2.2) := by
  induction opp with
  | nil => intro q; rfl
  | cons best rest ih =>
    intro q
    simp only [matchLimit]
    split_ifs with h1 h2 h3 h4
    · rfl
    · rfl
    · rw [ih (q - min q best.quantity)]
    · rfl
    · rfl

/-- Record-update corollary of `matchLimit_type_irrel`. -/
lemma matchLimit_retype (order : Order) (t : String) (opp : List Order) :
    matchLimit { order with type := t } opp =
      ((matchLimit order opp).1,
       { (matchLimit order opp).2.1 with type := t },
       (matchLimit order opp).2.2) := by
  obtain ⟨i, sym, sd, tp, p, q⟩ := order
  exact matchLimit_type_irrel i sym sd tp t p opp q

/-- The same-price scan never reads the incoming order's type. -/
lemma insertAfterSamePrice_type_irrel (i : Nat) (sym sd t1 t2 : String)
    (p q : Int) (l : List Order) :
    (insertAfterSamePrice ⟨i, sym, sd, t2, p, q⟩ l).map retype =
      (insertAfterSamePrice ⟨i, sym, sd, t1, p, q⟩ l).map retype := by
  induction l with
  | nil => rfl
  | cons b rest ih =>
    simp only [insertAfterSamePrice]
    split_ifs with h
    · simp only [List.map_cons]
      rw [ih]
    · rfl

/-- `_insert_resting` never reads the incoming order's type: up to the stored
type tags, the result is independent of it. -/
lemma insertResting_type_irrel (i : Nat) (sym sd t1 t2 : String)
    (p q : Int) (l : List Order) :
    (insertResting ⟨i, sym, sd, t2, p, q⟩ l).map retype =
      (insertResting ⟨i, sym, sd, t1, p, q⟩ l).map retype := by
  induction l with
  | nil => rfl
  | cons b rest ih =>
    simp only [insertResting]
    by_cases h : if sd = "buy" then p < b.price else b.price < p
    · rw [if_pos h, if_pos h]
      simp only [List.map_cons]
      rw [ih]
    · rw [if_neg h, if_neg h]
      exact insertAfterSamePrice_type_irrel i sym sd t1 t2 p q (b :: rest)

/-- Record-update corollary of `insertResting_type_irrel`. -/
lemma insertResting_retype (o : Order) (t : String) (l : List Order) :
    (insertResting { o with type := t } l).map retype =
      (insertResting o l).map retype := by
  obtain ⟨i, sym, sd, tp, p, q⟩ := o
  exact insertResting_type_irrel i sym sd tp t p q l

/-- The limit path behaves the same for a retyped order: identical reports,
and identical book state up to the type tag stored on the rested remainder. -/
lemma limitRoute_retype (book : Book) (order : Order) :
    (limitRoute book { order with type := "limit" }).1 = (limitRoute book order).1 ∧
    (limitRoute book { order with type := "limit" }).2.bids.map retype =
      (limitRoute book order).2.bids.map retype ∧
    (limitRoute book { order with type := "limit" }).2.asks.map retype =
      (limitRoute book order).2.asks.map retype ∧
    (limitRoute book { order with type := "limit" }).2.symbol =
      (limitRoute book order).2.symbol := by
  simp only [limitRoute, matchLimit_retype order "limit"]
  split_ifs with hbuy hrem hrem2
  · exact ⟨rfl, insertResting_retype _ "limit" book.bids, rfl, rfl⟩
  · exact ⟨rfl, rfl, rfl, rfl⟩
  · exact ⟨rfl, rfl, insertResting_retype _ "limit" book.asks, rfl⟩
  · exact ⟨rfl, rfl, rfl, rfl⟩

/-- Empty book used by the C6 counterexample and witness. -/
def emptyBook : Book := { symbol := "X", bids := [], asks := [] }

/-- Sample stop order (buy, price 4, quantity 5). -/
def sampleStop : Order :=
  { id := 7, symbol := "X", side := "buy", type := "stop", price := 4, quantity := 5 }

/-- **C6 counterexample.** As stated, the claim is false: a stop order on an
empty book rests carrying its own `"stop"` type string, so the final book
state is *not* equal to the one produced by the otherwise-identical `"limit"`
order (the reports, here none, do agree). -/
theorem addOrder_stop_neq_limit :
    ¬ ((addOrder emptyBook sampleStop).1 =
         (addOrder emptyBook { sampleStop with type := "limit" }).1 ∧
       (addOrder emptyBook sampleStop).2 =
         (addOrder emptyBook { sampleStop with type := "limit" }).2) := by decide

/-- **C6 (amended).** Every non-market order type (stop or unrecognized)
takes exactly the limit path — limit matching, then resting insertion of a
positive remainder — and produces the same reports as the otherwise-identical
limit order; the final book state agrees up to the type string stored on the
rested remainder (the order rests with its original type). -/
theorem addOrder_nonmarket_limit_path (book : Book) (order : Order)
    (h : order.type ≠ "market") :
    addOrder book order = limitRoute book order ∧
    (addOrder book order).1 = (addOrder book { order with type := "limit" }).1 ∧
    (addOrder book order).2.bids.map retype =
      (addOrder book { order with type := "limit" }).2.bids.map retype ∧
    (addOrder book order).2.asks.map retype =
      (addOrder book { order with type := "limit" }).2.asks.map retype ∧
    (addOrder book order).2.symbol =
      (addOrder book { order with type := "limit" }).2.symbol := by
  have hL : addOrder book { order with type := "limit" } =
      limitRoute book { order with type := "limit" } :=
    addOrder_nonmarket book _ (by simp)
  rw [addOrder_nonmarket book order h, hL]
  obtain ⟨h1, h2, h3, h4⟩ := limitRoute_retype book order
  exact ⟨rfl, h1.symm, h2.symm, h3.symm, h4.symm⟩

/-- Witness for the amended C6 at a concrete input: the stop order on the
empty book. -/
theorem addOrder_nonmarket_limit_path_witness :
    sampleStop.type ≠ "market" ∧
    (addOrder emptyBook sampleStop = limitRoute emptyBook sampleStop ∧
     (addOrder emptyBook sampleStop).1 =
       (addOrder emptyBook { sampleStop with type := "limit" }).1 ∧
     (addOrder emptyBook sampleStop).2.bids.map retype =
       (addOrder emptyBook { sampleStop with type := "limit" }).2.bids.map retype ∧
     (addOrder emptyBook sampleStop).2.asks.map retype =
       (addOrder emptyBook { sampleStop with type := "limit" }).2.asks.map retype ∧
     (addOrder emptyBook sampleStop).2.symbol =
       (addOrder emptyBook { sampleStop with type := "limit" }).2.symbol) :=
  ⟨by decide, addOrder_nonmarket_limit_path emptyBook sampleStop (by decide)⟩

end OrderBook
